import Mathlib

/-!
# Verification of the `kmean` clustering package

This file is a shallow embedding, in Lean 4, of the k-means++ / Lloyd
clustering code of the repository (package `kmean`: `PlsaSample`,
`Cluster`, `kMeanPlusPlus`, `kMean` and the cluster statistics), together
with theorems settling the specification claims about it.

Modelling conventions:
* Go `float64` is idealised as `ℝ`; division by zero is Lean's `x / 0 = 0`
  where Go would produce `NaN`/`±Inf` (each use site is commented).
* A Go `map[string]float64` is an association list `List (String × ℝ)`;
  the places where the code relies on key uniqueness take a `Nodup`
  hypothesis on the key list.
* Go panics (out-of-range indexing, integer modulo by zero) are modelled
  by `Option`: `none` is a panic.
* The process-global random source is made explicit: the seeder receives
  the value drawn by `rand.Int()` and a stream of `rand.Float64()` draws.
-/

namespace KMean

/-- `PlsaSample` from `plsa_samples.go`: a topic id, a sparse term→weight
map, and the cached norm field. -/
structure PlsaSample where
  topicId : Int
  repTerms : List (String × ℝ)
  norm : ℝ

/-- Lookup of `repTerms[k]` (Go map access with `found` flag). -/
def findW : List (String × ℝ) → String → Option ℝ
  | [], _ => none
  | kv :: rest, k => if kv.1 = k then some kv.2 else findW rest k

/-- The weight of key `k`, `0` when absent (Go's zero value on a missing
map key). -/
noncomputable def getW (ts : List (String × ℝ)) (k : String) : ℝ :=
  (findW ts k).getD 0

/-- The key list of a term map. -/
def keysOf (ts : List (String × ℝ)) : List String :=
  ts.map Prod.fst

/-- The loop body of `PlsaSample.Norm`: the sum `n += v * v` over all
weights. -/
noncomputable def sumSq (ts : List (String × ℝ)) : ℝ :=
  (ts.map (fun kv => kv.2 * kv.2)).sum

/-- `PlsaSample.Normalize`: sums the raw weights into `totalP`, divides
every weight by `totalP`, and stamps the cached norm with `1.0`.
(When `totalP = 0` Go produces `NaN`/`±Inf` weights; in `ℝ` the division
yields `0` — either way no error is signalled.) -/
noncomputable def Normalize (s : PlsaSample) : PlsaSample :=
  let totalP := (s.repTerms.map (fun kv => kv.2)).sum
  { s with
    repTerms := s.repTerms.map (fun kv => (kv.1, kv.2 / totalP))
    norm := 1 }

/-- `PlsaSample.Zero`: a fresh sample with topic id 0, empty term map and
zero cached norm.  The Go receiver is unused. -/
def Zero (_s : PlsaSample) : PlsaSample :=
  ⟨0, [], 0⟩

/-- One step of `PlsaSample.Add`'s loop: `s.repTerms[k] += v` (a missing
key reads as 0, so the entry is created with value `v`). -/
def insertAdd : List (String × ℝ) → String → ℝ → List (String × ℝ)
  | [], k, v => [(k, v)]
  | kv :: rest, k, v =>
    if kv.1 = k then (kv.1, kv.2 + v) :: rest else kv :: insertAdd rest k v

/-- `PlsaSample.Add`: pointwise accumulation of the other sample's terms.
The cached `norm` field is NOT touched (as in the source). -/
def Add (s a : PlsaSample) : PlsaSample :=
  { s with repTerms := a.repTerms.foldl (fun acc kv => insertAdd acc kv.1 kv.2) s.repTerms }

/-- `PlsaSample.ScalarMul`: pointwise scaling by `a`.  The cached `norm`
field is NOT touched (as in the source). -/
noncomputable def ScalarMul (s : PlsaSample) (a : ℝ) : PlsaSample :=
  { s with repTerms := s.repTerms.map (fun kv => (kv.1, kv.2 * a)) }

/-- `PlsaSample.Norm`: if the cached field is `0`, compute
`sqrt (Σ v²)`, store it in the cache and return it; otherwise return the
cache.  Returns the (possibly) mutated sample together with the value. -/
noncomputable def Norm (s : PlsaSample) : PlsaSample × ℝ :=
  if s.norm = 0 then
    let n := Real.sqrt (sumSq s.repTerms)
    ({ s with norm := n }, n)
  else (s, s.norm)

/-- `PlsaSample.DistanceFrom`: three loops — squared differences over the
keys common to both maps, plus the squared weight of every key present in
only one of the two maps. -/
noncomputable def DistanceFrom (s a : PlsaSample) : ℝ :=
  ((s.repTerms.map (fun kv =>
      match findW a.repTerms kv.1 with
      | some u => (kv.2 - u) * (kv.2 - u)
      | none => 0)).sum)
  + ((s.repTerms.map (fun kv =>
      match findW a.repTerms kv.1 with
      | some _ => 0
      | none => kv.2 * kv.2)).sum)
  + ((a.repTerms.map (fun kv =>
      match findW s.repTerms kv.1 with
      | some _ => 0
      | none => kv.2 * kv.2)).sum)

/-- `PlsaSample.CosineSim`: the dot product over the keys present in both
maps, divided by the product of the two (cached-or-computed) norms. -/
noncomputable def CosineSim (s a : PlsaSample) : ℝ :=
  let sDota := (s.repTerms.map (fun kv =>
      match findW a.repTerms kv.1 with
      | some u => u * kv.2
      | none => 0)).sum
  sDota / ((Norm s).2 * (Norm a).2)

/-- `Cluster` from `cluster.go`. -/
structure Cluster where
  Id : Int
  Centroid : PlsaSample
  Members : List PlsaSample

/-- The default sample used for (provably in-range) list indexing. -/
def zeroSample : PlsaSample := ⟨0, [], 0⟩

/-- `Cluster.RecalcCentroid`: start from a fresh zero sample, add every
member, scale by `1/len(Members)`, in spherical mode additionally scale
by `1/Norm` (Go's `z.Norm()` call caches into `z` first), and replace the
centroid wholesale.  (`1/0 = 0` in `ℝ` where Go has `+Inf`; for an empty
member list the scaling loop runs over an empty map either way.) -/
noncomputable def RecalcCentroid (c : Cluster) (isSperical : Bool) : Cluster :=
  let z := Zero c.Centroid
  let z := c.Members.foldl (fun acc m => Add acc m) z
  let z := ScalarMul z (1 / (c.Members.length : ℝ))
  let z := if isSperical then
      let nz := Norm z
      ScalarMul nz.1 (1 / nz.2)
    else z
  { c with Centroid := z }

/-- The similarity list built by `Cluster.PairwiseConsineSimStats`:
`CosineSim` of every pair `(i, j)` with `i < j`, in loop order. -/
noncomputable def pairSims : List PlsaSample → List ℝ
  | [] => []
  | m :: rest => rest.map (fun m2 => CosineSim m m2) ++ pairSims rest

/-- `Cluster.PairwiseConsineSimStats`: the returned `(avg, stdev)` pair.
The sum of the pair similarities is divided by `n = len(Members)` (not by
the number of pairs), and `stdev` is `sqrt` of the raw sum of squared
deviations from that `avg`. -/
noncomputable def PairwiseConsineSimStats (c : Cluster) : ℝ × ℝ :=
  let n := c.Members.length
  let sim := pairSims c.Members
  let total := sim.sum
  let avg := total / (n : ℝ)
  let dev := (sim.map (fun s => (s - avg) * (s - avg))).sum
  (avg, Real.sqrt dev)

/-! ## k-means++ seeding (`kmean.go`) -/

/-- `indexDist` from `kmean.go`. -/
structure IndexDist where
  index : Nat
  dist : ℝ

/-- The first loop of `normalizeIndexDist`: in-place prefix sums
(`indexD[j].dist += indexD[j-1].dist`), with `acc` the running sum of the
entries already passed. -/
noncomputable def cumSum : List IndexDist → ℝ → List IndexDist
  | [], _ => []
  | v :: rest, acc => ⟨v.index, acc + v.dist⟩ :: cumSum rest (acc + v.dist)

/-- `normalizeIndexDist`: prefix sums, then division of every entry by
`indexD[len-1].dist` (the total).  On an empty list Go panics with an
out-of-range index (`indexD[-1]`), modelled as `none`.  (When the total
is `0`, Go produces `NaN` entries; in `ℝ` the divisions yield `0` — in
both semantics no later `v.dist > newProb` test can succeed.) -/
noncomputable def normalizeIndexDist (l : List IndexDist) : Option (List IndexDist) :=
  match l with
  | [] => none
  | _ :: _ =>
    let cum := cumSum l 0
    let maxDist := (cum.getLast?.getD ⟨0, 0⟩).dist
    some (cum.map (fun v => ⟨v.index, v.dist / maxDist⟩))

/-- The inner loop of `kMeanPlusPlus` computing `shortestDist`: the
running minimum over the clusters of `sample.DistanceFrom(c.Centroid)`,
starting from `math.MaxFloat64` (modelled as `none`, which every first
comparison beats). -/
noncomputable def shortestDistTo (sample : PlsaSample) (clusters : List Cluster) : Option ℝ :=
  clusters.foldl (fun d c =>
    let dd := DistanceFrom sample c.Centroid
    match d with
    | none => some dd
    | some d0 => if dd < d0 then some dd else some d0) none

/-- The candidate list built in rounds `i ≥ 2` of `kMeanPlusPlus`: every
corpus index not yet in `indList`, paired with
`shortestDist * shortestDist`.  (The `getD 0` default is never read:
whenever this runs, `clusters` is nonempty.) -/
noncomputable def candidates (corpus : List PlsaSample) (indList : List Nat)
    (clusters : List Cluster) : List IndexDist :=
  ((List.range corpus.length).filter (fun j => !(indList.contains j))).map
    (fun j =>
      let sd := (shortestDistTo (corpus.getD j zeroSample) clusters).getD 0
      ⟨j, sd * sd⟩)

/-- The selection loop of `kMeanPlusPlus`: the first entry whose
(normalized cumulative) `dist` strictly exceeds the draw wins; when no
entry exceeds it, `ind` keeps its previous value (Go: the loop falls
through without assigning). -/
noncomputable def selectIndex : List IndexDist → ℝ → Nat → Nat
  | [], _, ind0 => ind0
  | v :: rest, p, ind0 => if v.dist > p then v.index else selectIndex rest p ind0

/-- The body of an `i ≥ 2` round of `kMeanPlusPlus`: build the candidate
list, normalize it (possibly panicking), and select with the draw `p`. -/
noncomputable def kppPick (corpus : List PlsaSample) (indList : List Nat)
    (clusters : List Cluster) (ind : Nat) (p : ℝ) : Option Nat :=
  match normalizeIndexDist (candidates corpus indList clusters) with
  | none => none
  | some indexD => some (selectIndex indexD p ind)

/-- The `for i := 1; i <= k; i++` loop of `kMeanPlusPlus`, with `rem`
rounds left to run.  Round 1 draws `rand.Int() % s.SampleSize()` (a panic
— `none` — when the corpus is empty); later rounds use `kppPick` with the
round's `rand.Float64()` draw.  Each round appends
`Cluster{i, s.Sample(ind), nil}` and records `ind` in `indList`. -/
noncomputable def kppLoop (corpus : List PlsaSample) (probs : Nat → ℝ) (r0 : Nat) :
    Nat → Nat → List Cluster → List Nat → Nat → Option (List Cluster)
  | 0, _, clusters, _, _ => some clusters
  | rem + 1, i, clusters, indList, ind =>
    let step : Option Nat :=
      if i = 1 then
        (if corpus.length = 0 then none else some (r0 % corpus.length))
      else kppPick corpus indList clusters ind (probs i)
    match step with
    | none => none
    | some newInd =>
      kppLoop corpus probs r0 rem (i + 1)
        (clusters ++ [⟨(i : Int), corpus.getD newInd zeroSample, []⟩])
        (indList ++ [newInd]) newInd

/-- `kMeanPlusPlus s k`, with the random source explicit. -/
noncomputable def kMeanPlusPlus (corpus : List PlsaSample) (k : Nat) (r0 : Nat)
    (probs : Nat → ℝ) : Option (List Cluster) :=
  kppLoop corpus probs r0 k 1 [] [] 0

/-! ## Lloyd iteration (`kmean.go`) -/

/-- The fold underlying `nearestCentroid`: state `(index, dist, sim)`
with `dist` starting at `math.MaxFloat64` (modelled as `none`, which
every first comparison beats) and `sim` starting at `0`; `j` is the
position of the head cluster. -/
noncomputable def ncFold (sample : PlsaSample) (isSpherical : Bool) :
    List Cluster → Nat → Nat × Option ℝ × ℝ → Nat × Option ℝ × ℝ
  | [], _, st => st
  | c :: rest, j, st =>
    let st' :=
      if isSpherical then
        let cSim := CosineSim sample c.Centroid
        if st.2.2 < cSim then (j, st.2.1, cSim) else st
      else
        match st.2.1 with
        | none => (j, some (DistanceFrom sample c.Centroid), st.2.2)
        | some d =>
          let cDist := DistanceFrom sample c.Centroid
          if cDist < d then (j, some cDist, st.2.2) else st
    ncFold sample isSpherical rest (j + 1) st'

/-- `nearestCentroid`: the index of the nearest cluster — minimum
`DistanceFrom` in Euclidean mode, maximum `CosineSim` (strictly above the
running `sim`, which starts at 0) in spherical mode. -/
noncomputable def nearestCentroid (sample : PlsaSample) (clusters : List Cluster)
    (isSpherical : Bool) : Nat :=
  (ncFold sample isSpherical clusters 0 (0, none, 0)).1

/-- `cloneClusterCentroids`: same ids and centroids, empty membership. -/
def cloneClusterCentroids (clusters : List Cluster) : List Cluster :=
  clusters.map (fun c => ⟨c.Id, c.Centroid, []⟩)

/-- `newClusters[index].add(sample)`: append `sample` to the members of
the cluster at `index`.  (Go panics when `index` is out of range;
`List.set` is a no-op there — all uses are proved in range.) -/
def clusterAddAt (nc : List Cluster) (index : Nat) (sample : PlsaSample) : List Cluster :=
  let c := nc.getD index ⟨0, zeroSample, []⟩
  nc.set index ⟨c.Id, c.Centroid, c.Members ++ [sample]⟩

/-- One iteration of the `kMean` loop: clone the current generation with
empty membership, assign every corpus sample to its nearest centroid
(computed against the OLD generation), then recompute every centroid. -/
noncomputable def kMeanIteration (corpus : List PlsaSample) (clusters : List Cluster)
    (isSpherical : Bool) : List Cluster :=
  let newClusters := cloneClusterCentroids clusters
  let assigned := corpus.foldl
    (fun nc sample => clusterAddAt nc (nearestCentroid sample clusters isSpherical) sample)
    newClusters
  assigned.map (fun c => RecalcCentroid c isSpherical)

/-- The concatenation of all clusters' member lists. -/
def membersOf (cs : List Cluster) : List PlsaSample :=
  (cs.map Cluster.Members).flatten

/-- The state of the assignment pass alone (before the centroid update),
for stating the partition invariant. -/
noncomputable def assignmentPass (corpus : List PlsaSample) (clusters : List Cluster)
    (isSpherical : Bool) : List Cluster :=
  corpus.foldl
    (fun nc sample => clusterAddAt nc (nearestCentroid sample clusters isSpherical) sample)
    (cloneClusterCentroids clusters)

/-! ## Spec-side descriptions

Declarative definitions that follow the specification's words, used to
compare the code's seeding round against the spec's description of it. -/

/-- The minimum of a list of reals (0 for the empty list; only used on
nonempty lists). -/
noncomputable def listMin : List ℝ → ℝ
  | [] => 0
  | x :: xs => xs.foldl min x

/-- The not-yet-chosen corpus indices, in corpus order. -/
def unchosenIdx (n : Nat) (indList : List Nat) : List Nat :=
  (List.range n).filter (fun j => !(indList.contains j))

/-- Spec §4.3: the (squared Euclidean) distance of the sample at index
`j` to its nearest already-chosen centroid — the minimum of the
`DistanceFrom` values. -/
noncomputable def specNearestDist (corpus : List PlsaSample) (clusters : List Cluster)
    (j : Nat) : ℝ :=
  listMin (clusters.map (fun c => DistanceFrom (corpus.getD j zeroSample) c.Centroid))

/-- Spec §4.3: "build a cumulative-sum array over these [weights] in
corpus order; normalize by the total so the array is a cumulative
probability distribution". -/
noncomputable def specCumulative (ws : List ℝ) : List ℝ :=
  (List.range ws.length).map (fun m => ((ws.take (m + 1)).sum) / ws.sum)

/-- Spec §4.3: the position of "the first candidate whose cumulative
value exceeds the draw". -/
noncomputable def specFirstExceed : List ℝ → ℝ → Option Nat
  | [], _ => none
  | c :: rest, p => if p < c then some 0 else (specFirstExceed rest p).map (fun t => t + 1)

/-- The seeding round exactly as the claim words it: each not-yet-chosen
index weighted by THE VALUE `DistanceFrom` RETURNS (the squared distance
to the nearest chosen centroid), cumulative sums normalized by the
total, first cumulative value exceeding the draw selected. -/
noncomputable def claimedRoundPick (corpus : List PlsaSample) (indList : List Nat)
    (clusters : List Cluster) (p : ℝ) : Option Nat :=
  let unch := unchosenIdx corpus.length indList
  let ws := unch.map (specNearestDist corpus clusters)
  (specFirstExceed (specCumulative ws) p).map (fun t => unch.getD t 0)

/-- The same round with the weight the code actually uses: the SQUARE of
the `DistanceFrom` value. -/
noncomputable def squaredRoundPick (corpus : List PlsaSample) (indList : List Nat)
    (clusters : List Cluster) (p : ℝ) : Option Nat :=
  let unch := unchosenIdx corpus.length indList
  let ws := unch.map (fun j => specNearestDist corpus clusters j * specNearestDist corpus clusters j)
  (specFirstExceed (specCumulative ws) p).map (fun t => unch.getD t 0)

/-- The cluster list `kMeanPlusPlus` builds from a list of selected
indices: the `l`-th cluster has id `i + l`, the corpus sample at the
selected index as centroid, and no members. -/
def buildClusters (corpus : List PlsaSample) : List Nat → Nat → List Cluster
  | [], _ => []
  | j :: rest, i => ⟨(i : Int), corpus.getD j zeroSample, []⟩ :: buildClusters corpus rest (i + 1)

/-! ## Theorems -/

/-! ### Association-list lemmas -/

theorem findW_cons_self {k : String} {v : ℝ} {rest : List (String × ℝ)} :
    findW ((k, v) :: rest) k = some v := by
  simp [findW]

theorem findW_cons_ne {k k' : String} {v : ℝ} {rest : List (String × ℝ)}
    (h : k ≠ k') : findW ((k, v) :: rest) k' = findW rest k' := by
  simp [findW, h]

theorem findW_eq_none {ts : List (String × ℝ)} {k : String} :
    findW ts k = none ↔ k ∉ keysOf ts := by
  induction ts with
  | nil => simp [findW, keysOf]
  | cons kv rest ih =>
    by_cases h : kv.1 = k
    · subst h
      simp [findW, keysOf]
    · simp [findW, h, keysOf, ih, Ne.symm h]

theorem findW_isSome_iff {ts : List (String × ℝ)} {k : String} :
    (findW ts k).isSome ↔ k ∈ keysOf ts := by
  rcases h : findW ts k with _ | u
  · simpa [h] using (findW_eq_none.mp h)
  · simp only [Option.isSome_some, true_iff]
    by_contra hk
    rw [findW_eq_none.mpr hk] at h
    cases h

theorem getW_cons_ne {k k' : String} {v : ℝ} {rest : List (String × ℝ)}
    (h : k ≠ k') : getW ((k, v) :: rest) k' = getW rest k' := by
  simp [getW, findW_cons_ne h]

theorem getW_eq_zero_of_not_mem {ts : List (String × ℝ)} {k : String}
    (h : k ∉ keysOf ts) : getW ts k = 0 := by
  simp [getW, findW_eq_none.mpr h]

/-- The first two loops of `DistanceFrom` together sum
`(getW s k - getW a k)²` over the keys of `s`. -/
theorem distance_loops12 (a : PlsaSample) :
    ∀ ts : List (String × ℝ), (keysOf ts).Nodup →
    ((ts.map (fun kv =>
        match findW a.repTerms kv.1 with
        | some u => (kv.2 - u) * (kv.2 - u)
        | none => 0)).sum
      + (ts.map (fun kv =>
        match findW a.repTerms kv.1 with
        | some _ => 0
        | none => kv.2 * kv.2)).sum)
      = ∑ k ∈ (keysOf ts).toFinset, (getW ts k - getW a.repTerms k) ^ 2 := by
  intro ts
  induction ts with
  | nil => intro _; simp [keysOf]
  | cons kv rest ih =>
    intro hnd
    rw [show keysOf (kv :: rest) = kv.1 :: keysOf rest from rfl] at hnd
    obtain ⟨hk, hrest⟩ := List.nodup_cons.mp hnd
    have hne : kv.1 ∉ (keysOf rest).toFinset := by
      simpa using hk
    have hhead :
        ((match findW a.repTerms kv.1 with
          | some u => (kv.2 - u) * (kv.2 - u)
          | none => 0)
         + (match findW a.repTerms kv.1 with
          | some _ => 0
          | none => kv.2 * kv.2))
        = (kv.2 - getW a.repTerms kv.1) ^ 2 := by
      rcases h : findW a.repTerms kv.1 with _ | u <;>
        simp [getW, h] <;> ring
    have hcongr :
        ∑ k ∈ (keysOf rest).toFinset, (getW rest k - getW a.repTerms k) ^ 2
        = ∑ k ∈ (keysOf rest).toFinset, (getW ((kv.1, kv.2) :: rest) k - getW a.repTerms k) ^ 2 := by
      refine Finset.sum_congr rfl (fun k hkmem => ?_)
      have : kv.1 ≠ k := fun h => hne (h ▸ hkmem)
      rw [getW_cons_ne this]
    calc ((kv :: rest).map (fun kv =>
        match findW a.repTerms kv.1 with
        | some u => (kv.2 - u) * (kv.2 - u)
        | none => 0)).sum
      + ((kv :: rest).map (fun kv =>
        match findW a.repTerms kv.1 with
        | some _ => 0
        | none => kv.2 * kv.2)).sum
        = ((match findW a.repTerms kv.1 with
          | some u => (kv.2 - u) * (kv.2 - u)
          | none => 0)
         + (match findW a.repTerms kv.1 with
          | some _ => 0
          | none => kv.2 * kv.2))
          + ((rest.map (fun kv =>
            match findW a.repTerms kv.1 with
            | some u => (kv.2 - u) * (kv.2 - u)
            | none => 0)).sum
          + (rest.map (fun kv =>
            match findW a.repTerms kv.1 with
            | some _ => 0
            | none => kv.2 * kv.2)).sum) := by
          simp; ring
      _ = (kv.2 - getW a.repTerms kv.1) ^ 2
          + ∑ k ∈ (keysOf rest).toFinset, (getW rest k - getW a.repTerms k) ^ 2 := by
          rw [hhead, ih hrest]
      _ = ∑ k ∈ (keysOf (kv :: rest)).toFinset, (getW (kv :: rest) k - getW a.repTerms k) ^ 2 := by
          rw [hcongr]
          have hv : getW ((kv.1, kv.2) :: rest) kv.1 = kv.2 := by
            simp [getW, findW]
          rw [show keysOf (kv :: rest) = kv.1 :: keysOf rest from rfl]
          rw [List.toFinset_cons, Finset.sum_insert hne, hv]

/-- The third loop of `DistanceFrom` sums `(getW a k)²` over the keys
present only in `a`. -/
theorem distance_loop3 (s : PlsaSample) :
    ∀ ts : List (String × ℝ), (keysOf ts).Nodup →
    (ts.map (fun kv =>
        match findW s.repTerms kv.1 with
        | some _ => 0
        | none => kv.2 * kv.2)).sum
      = ∑ k ∈ ((keysOf ts).toFinset \ (keysOf s.repTerms).toFinset), (getW ts k) ^ 2 := by
  intro ts
  induction ts with
  | nil => intro _; simp [keysOf]
  | cons kv rest ih =>
    intro hnd
    rw [show keysOf (kv :: rest) = kv.1 :: keysOf rest from rfl] at hnd
    obtain ⟨hk, hrest⟩ := List.nodup_cons.mp hnd
    have hne : kv.1 ∉ (keysOf rest).toFinset := by simpa using hk
    have hcongr :
        ∑ k ∈ ((keysOf rest).toFinset \ (keysOf s.repTerms).toFinset), (getW rest k) ^ 2
        = ∑ k ∈ ((keysOf rest).toFinset \ (keysOf s.repTerms).toFinset),
            (getW ((kv.1, kv.2) :: rest) k) ^ 2 := by
      refine Finset.sum_congr rfl (fun k hkmem => ?_)
      have hkr : k ∈ (keysOf rest).toFinset := (Finset.mem_sdiff.mp hkmem).1
      have : kv.1 ≠ k := fun h => hne (h ▸ hkr)
      rw [getW_cons_ne this]
    rw [show keysOf (kv :: rest) = kv.1 :: keysOf rest from rfl, List.toFinset_cons]
    rcases h : findW s.repTerms kv.1 with _ | u
    · -- key not in s: it contributes its squared weight
      have hmem : kv.1 ∉ (keysOf s.repTerms).toFinset := by
        simpa using findW_eq_none.mp h
      rw [Finset.insert_sdiff_of_not_mem _ (by simpa using hmem)]
      have hni : kv.1 ∉ (keysOf rest).toFinset \ (keysOf s.repTerms).toFinset := by
        simp [hne]
      rw [Finset.sum_insert hni]
      have hv : getW ((kv.1, kv.2) :: rest) kv.1 = kv.2 := by
        simp [getW, findW]
      simp only [List.map_cons, List.sum_cons, h]
      rw [ih hrest, hcongr, hv]
      ring
    · -- key in s: it contributes 0 and drops out of the difference
      have hmem : kv.1 ∈ (keysOf s.repTerms).toFinset := by
        have : (findW s.repTerms kv.1).isSome := by simp [h]
        simpa using findW_isSome_iff.mp this
      rw [Finset.insert_sdiff_of_mem _ hmem]
      simp only [List.map_cons, List.sum_cons, h]
      rw [ih hrest, hcongr]
      ring

/-- C8.  `DistanceFrom` sums squared differences over the union of the
two key sets, a missing key reading as weight `0`; in particular on the
spec's concrete corpus `a = {x:0.12, y:0.22}`,
`b = {x:0.12, y:0.22, z:0.99}` it returns `0.99²`. -/
theorem C8_distance_union (s a : PlsaSample)
    (hs : (keysOf s.repTerms).Nodup) (ha : (keysOf a.repTerms).Nodup) :
    DistanceFrom s a
      = ∑ k ∈ ((keysOf s.repTerms).toFinset ∪ (keysOf a.repTerms).toFinset),
          (getW s.repTerms k - getW a.repTerms k) ^ 2
    ∧ DistanceFrom ⟨1, [("x", 0.12), ("y", 0.22)], 0⟩
        ⟨2, [("x", 0.12), ("y", 0.22), ("z", 0.99)], 0⟩ = 0.99 ^ 2 := by
  constructor
  · have hsplit :
        (keysOf s.repTerms).toFinset ∪ (keysOf a.repTerms).toFinset
        = (keysOf s.repTerms).toFinset
            ∪ ((keysOf a.repTerms).toFinset \ (keysOf s.repTerms).toFinset) := by
      rw [Finset.union_sdiff_self_eq_union]
    rw [hsplit, Finset.sum_union Finset.disjoint_sdiff]
    rw [DistanceFrom.eq_def]
    rw [distance_loops12 a s.repTerms hs, distance_loop3 s a.repTerms ha]
    congr 1
    refine Finset.sum_congr rfl (fun k hkmem => ?_)
    have : k ∉ keysOf s.repTerms := by
      have := (Finset.mem_sdiff.mp hkmem).2
      simpa using this
    rw [getW_eq_zero_of_not_mem this]
    ring
  · simp [DistanceFrom, findW]
    norm_num

/-- Witness for C8: the general union formula applied at the spec's
concrete two samples yields exactly `0.99²`. -/
theorem C8_witness :
    DistanceFrom ⟨1, [("x", 0.12), ("y", 0.22)], 0⟩
      ⟨2, [("x", 0.12), ("y", 0.22), ("z", 0.99)], 0⟩ = 0.99 ^ 2 :=
  (C8_distance_union ⟨1, [("x", 0.12), ("y", 0.22)], 0⟩
    ⟨2, [("x", 0.12), ("y", 0.22), ("z", 0.99)], 0⟩
    (by simp [keysOf]) (by simp [keysOf])).2

/-! ### The assignment pass partitions the corpus (C9) -/

/-- The index `ncFold` returns is either the incoming one or the
position of one of the traversed clusters. -/
theorem ncFold_fst_cases (sample : PlsaSample) (b : Bool) :
    ∀ (l : List Cluster) (j : Nat) (st : Nat × Option ℝ × ℝ),
      (ncFold sample b l j st).1 = st.1 ∨
      (j ≤ (ncFold sample b l j st).1 ∧ (ncFold sample b l j st).1 < j + l.length) := by
  intro l
  induction l with
  | nil => intro j st; left; rfl
  | cons c rest ih =>
    intro j st
    rw [ncFold]
    have hst' : ∀ st' : Nat × Option ℝ × ℝ, st'.1 = st.1 ∨ st'.1 = j →
        (ncFold sample b rest (j + 1) st').1 = st.1 ∨
        (j ≤ (ncFold sample b rest (j + 1) st').1 ∧
          (ncFold sample b rest (j + 1) st').1 < j + (c :: rest).length) := by
      intro st' h
      rcases ih (j + 1) st' with h1 | ⟨h2, h3⟩
      · rcases h with h | h
        · left; rw [h1, h]
        · right
          refine ⟨by omega, ?_⟩
          rw [h1, h]
          simp
      · right
        constructor
        · omega
        · simp only [List.length_cons]
          omega
    apply hst'
    rcases st with ⟨i, d, sm⟩
    dsimp only
    split
    · split
      · right; rfl
      · left; rfl
    · rcases d with _ | d0
      · right; rfl
      · dsimp only
        split
        · right; rfl
        · left; rfl

/-- With at least one cluster, `nearestCentroid` returns an in-range
index. -/
theorem nearestCentroid_lt (sample : PlsaSample) (clusters : List Cluster)
    (b : Bool) (h : clusters ≠ []) :
    nearestCentroid sample clusters b < clusters.length := by
  have hlen : 0 < clusters.length := List.length_pos.mpr h
  rcases ncFold_fst_cases sample b clusters 0 (0, none, 0) with h1 | ⟨_, h3⟩
  · rw [nearestCentroid, h1]; exact hlen
  · rw [nearestCentroid]; omega

theorem clusterAddAt_length (nc : List Cluster) (i : Nat) (s : PlsaSample) :
    (clusterAddAt nc i s).length = nc.length := by
  simp [clusterAddAt]

/-- Appending a member to the cluster at an in-range position adds
exactly that sample to the pooled membership. -/
theorem membersOf_clusterAddAt :
    ∀ (nc : List Cluster) (i : Nat) (s : PlsaSample), i < nc.length →
      List.Perm (membersOf (clusterAddAt nc i s)) (s :: membersOf nc) := by
  intro nc
  induction nc with
  | nil => intro i s h; simp at h
  | cons c rest ih =>
    intro i s h
    rcases i with _ | i'
    · simp only [clusterAddAt, List.getD_cons_zero, List.set_cons_zero, membersOf,
        List.map_cons, List.flatten_cons]
      have hassoc : (c.Members ++ [s]) ++ (rest.map Cluster.Members).flatten
          = c.Members ++ ([s] ++ (rest.map Cluster.Members).flatten) := by
        rw [List.append_assoc]
      rw [hassoc]
      exact List.perm_middle
    · have h' : i' < rest.length := by simpa using h
      have step : clusterAddAt (c :: rest) (i' + 1) s = c :: clusterAddAt rest i' s := by
        simp [clusterAddAt]
      rw [step]
      simp only [membersOf, List.map_cons, List.flatten_cons]
      exact (List.Perm.append_left c.Members (ih i' s h')).trans List.perm_middle

/-- The assignment fold pools the new-generation membership: it is a
permutation of the corpus prepended to the previous membership. -/
theorem membersOf_assign_fold (clusters : List Cluster) (b : Bool)
    (hne : clusters ≠ []) :
    ∀ (corpus : List PlsaSample) (nc : List Cluster), nc.length = clusters.length →
      List.Perm
        (membersOf (corpus.foldl
          (fun nc sample => clusterAddAt nc (nearestCentroid sample clusters b) sample) nc))
        (corpus ++ membersOf nc) := by
  intro corpus
  induction corpus with
  | nil => intro nc _; simp
  | cons x xs ih =>
    intro nc hlen
    rw [List.foldl_cons]
    have hidx : nearestCentroid x clusters b < nc.length := by
      rw [hlen]; exact nearestCentroid_lt x clusters b hne
    have h1 := ih (clusterAddAt nc (nearestCentroid x clusters b) x)
      (by rw [clusterAddAt_length]; exact hlen)
    refine h1.trans ?_
    refine (List.Perm.append_left xs
      (membersOf_clusterAddAt nc (nearestCentroid x clusters b) x hidx)).trans ?_
    exact List.perm_middle

theorem membersOf_clone (clusters : List Cluster) :
    membersOf (cloneClusterCentroids clusters) = [] := by
  induction clusters with
  | nil => rfl
  | cons c rest ih =>
    simp only [cloneClusterCentroids, membersOf, List.map_cons, List.flatten_cons,
      List.nil_append] at *
    exact ih

theorem clone_length (clusters : List Cluster) :
    (cloneClusterCentroids clusters).length = clusters.length := by
  simp [cloneClusterCentroids]

/-- The update step replaces centroids only; it never touches the
member lists. -/
theorem recalc_members (c : Cluster) (b : Bool) :
    (RecalcCentroid c b).Members = c.Members := rfl

theorem membersOf_map_recalc (cs : List Cluster) (b : Bool) :
    membersOf (cs.map (fun c => RecalcCentroid c b)) = membersOf cs := by
  induction cs with
  | nil => rfl
  | cons c rest ih =>
    simp only [membersOf, List.map_cons, List.flatten_cons, recalc_members] at *
    rw [ih]

/-- C9.  After an assignment pass (in either geometry) every corpus
sample sits in exactly one cluster of the new generation: the pooled
membership is a permutation of the corpus (so the pooled identity list
is a permutation of the corpus identity list — no duplicates, no
omissions), and the centroid-update step preserves this. -/
theorem C9_assignment_partitions (corpus : List PlsaSample) (clusters : List Cluster)
    (b : Bool) (h : clusters ≠ []) :
    List.Perm (membersOf (assignmentPass corpus clusters b)) corpus ∧
    List.Perm ((membersOf (assignmentPass corpus clusters b)).map PlsaSample.topicId)
      (corpus.map PlsaSample.topicId) ∧
    List.Perm (membersOf (kMeanIteration corpus clusters b)) corpus := by
  have key : List.Perm (membersOf (assignmentPass corpus clusters b)) corpus := by
    have := membersOf_assign_fold clusters b h corpus
      (cloneClusterCentroids clusters) (clone_length clusters)
    rw [membersOf_clone] at this
    simpa [assignmentPass] using this
  refine ⟨key, key.map PlsaSample.topicId, ?_⟩
  have : kMeanIteration corpus clusters b
      = (assignmentPass corpus clusters b).map (fun c => RecalcCentroid c b) := rfl
  rw [this, membersOf_map_recalc]
  exact key

/-! ### The seeding round: prefix sums, normalization and selection -/

theorem cumSum_map_index : ∀ (l : List IndexDist) (a : ℝ),
    (cumSum l a).map IndexDist.index = l.map IndexDist.index := by
  intro l
  induction l with
  | nil => intro a; rfl
  | cons v rest ih => intro a; simp [cumSum, ih]

theorem cumSum_length : ∀ (l : List IndexDist) (a : ℝ),
    (cumSum l a).length = l.length := by
  intro l
  induction l with
  | nil => intro a; rfl
  | cons v rest ih => intro a; simp [cumSum, ih]

/-- The prefix-sum loop computes, at position `m`, the accumulator plus
the sum of the first `m + 1` weights. -/
theorem cumSum_map_dist : ∀ (l : List IndexDist) (a : ℝ),
    (cumSum l a).map IndexDist.dist
      = (List.range l.length).map (fun m => a + ((l.map IndexDist.dist).take (m + 1)).sum) := by
  intro l
  induction l with
  | nil => intro a; rfl
  | cons v rest ih =>
    intro a
    simp only [cumSum, List.map_cons, List.length_cons, List.range_succ_eq_map,
      List.map_map]
    refine List.cons_eq_cons.mpr ⟨by simp, ?_⟩
    rw [ih (a + v.dist)]
    refine List.map_congr_left (fun m _ => ?_)
    simp [Function.comp]
    ring

/-- The last entry of the prefix-sum list carries the total. -/
theorem cumSum_getLast_dist : ∀ (l : List IndexDist) (a : ℝ), l ≠ [] →
    ((cumSum l a).getLast?.getD ⟨0, 0⟩).dist = a + (l.map IndexDist.dist).sum := by
  intro l
  induction l with
  | nil => intro a h; exact absurd rfl h
  | cons v rest ih =>
    intro a _
    rcases hr : rest with _ | ⟨w, rest'⟩
    · simp [cumSum]
    · subst hr
      have hne : (w :: rest') ≠ [] := by simp
      have hstep : ((⟨v.index, a + v.dist⟩ : IndexDist)
            :: cumSum (w :: rest') (a + v.dist)).getLast?
          = (cumSum (w :: rest') (a + v.dist)).getLast? := by
        rw [show cumSum (w :: rest') (a + v.dist)
            = ⟨w.index, a + v.dist + w.dist⟩ :: cumSum rest' (a + v.dist + w.dist) from rfl]
        rw [List.getLast?_cons_cons]
      rw [cumSum, hstep, ih (a + v.dist) hne]
      simp only [List.map_cons, List.sum_cons]
      ring

/-- `normalizeIndexDist` on a nonempty list: prefix sums divided by the
total. -/
theorem normalizeIndexDist_eq (l : List IndexDist) (hne : l ≠ []) :
    normalizeIndexDist l
      = some ((cumSum l 0).map
          (fun v => ⟨v.index, v.dist / (l.map IndexDist.dist).sum⟩)) := by
  rcases l with _ | ⟨v, rest⟩
  · exact absurd rfl hne
  · rw [normalizeIndexDist]
    have := cumSum_getLast_dist (v :: rest) 0 (by simp)
    rw [this]
    simp

/-- The normalized cumulative list carries exactly the spec's cumulative
probability values. -/
theorem normalized_dists (l : List IndexDist) :
    ((cumSum l 0).map
        (fun v => (⟨v.index, v.dist / (l.map IndexDist.dist).sum⟩ : IndexDist))).map
        IndexDist.dist
      = specCumulative (l.map IndexDist.dist) := by
  have h1 : ((cumSum l 0).map
      (fun v => (⟨v.index, v.dist / (l.map IndexDist.dist).sum⟩ : IndexDist))).map
      IndexDist.dist
      = ((cumSum l 0).map IndexDist.dist).map
        (fun x => x / (l.map IndexDist.dist).sum) := by
    simp [List.map_map, Function.comp]
  rw [h1, cumSum_map_dist l 0, specCumulative, List.map_map]
  simp only [List.length_map]
  refine List.map_congr_left (fun m _ => ?_)
  simp [Function.comp]

/-- The selection scan returns the entry at the position the spec's
"first cumulative value exceeding the draw" rule designates. -/
theorem selectIndex_spec : ∀ (N : List IndexDist) (p : ℝ) (ind t : Nat),
    specFirstExceed (N.map IndexDist.dist) p = some t →
    t < N.length ∧ selectIndex N p ind = (N.map IndexDist.index).getD t 0 := by
  intro N
  induction N with
  | nil => intro p ind t h; cases h
  | cons v rest ih =>
    intro p ind t h
    rw [List.map_cons, specFirstExceed] at h
    by_cases hc : p < v.dist
    · rw [if_pos hc] at h
      obtain rfl : (0 : Nat) = t := by simpa using h
      refine ⟨by simp, ?_⟩
      rw [selectIndex, if_pos hc]
      simp
    · rw [if_neg hc] at h
      rcases Option.map_eq_some'.mp h with ⟨t', ht', rfl⟩
      obtain ⟨hlt, hsel⟩ := ih p ind t' ht'
      refine ⟨by simpa using hlt, ?_⟩
      rw [selectIndex, if_neg hc, hsel]
      simp

theorem specFirstExceed_exists : ∀ (cs : List ℝ) (p : ℝ), (∃ c ∈ cs, p < c) →
    ∃ t, specFirstExceed cs p = some t := by
  intro cs
  induction cs with
  | nil => intro p h; simp at h
  | cons c rest ih =>
    intro p h
    by_cases hc : p < c
    · exact ⟨0, by rw [specFirstExceed, if_pos hc]⟩
    · rcases h with ⟨c', hc', hpc'⟩
      rcases List.mem_cons.mp hc' with rfl | hmem
      · exact absurd hpc' hc
      · rcases ih p ⟨c', hmem, hpc'⟩ with ⟨t, ht⟩
        exact ⟨t + 1, by rw [specFirstExceed, if_neg hc, ht]; rfl⟩

/-- When the total weight is positive, the last entry of the spec's
cumulative array is exactly `1`. -/
theorem specCumulative_last_one (ws : List ℝ) (hne : ws ≠ [])
    (htot : 0 < ws.sum) : (1 : ℝ) ∈ specCumulative ws := by
  have hlen : 0 < ws.length := List.length_pos.mpr hne
  have hmem : ws.length - 1 ∈ List.range ws.length := by
    rw [List.mem_range]; omega
  have : ((ws.take (ws.length - 1 + 1)).sum) / ws.sum = 1 := by
    have h1 : ws.length - 1 + 1 = ws.length := by omega
    rw [h1, List.take_length, div_self (ne_of_gt htot)]
  rw [specCumulative]
  refine List.mem_map.mpr ⟨ws.length - 1, hmem, this⟩

/-- The full refinement of one `i ≥ 2` seeding round, for an arbitrary
candidate list `L` with positive total weight: `normalizeIndexDist`
followed by the selection scan picks exactly the candidate at the
position of the first normalized cumulative sum exceeding the draw. -/
theorem pick_refines (L : List IndexDist) (p : ℝ) (ind : Nat)
    (htot : 0 < (L.map IndexDist.dist).sum) (hp1 : p < 1) :
    ∃ t, specFirstExceed (specCumulative (L.map IndexDist.dist)) p = some t ∧
      t < L.length ∧
      (match normalizeIndexDist L with
       | none => none
       | some indexD => some (selectIndex indexD p ind))
        = some ((L.map IndexDist.index).getD t 0) := by
  have hne : L ≠ [] := by
    intro h
    rw [h] at htot
    simp at htot
  have hwne : L.map IndexDist.dist ≠ [] := by
    simpa using hne
  obtain ⟨t, ht⟩ := specFirstExceed_exists (specCumulative (L.map IndexDist.dist)) p
    ⟨1, specCumulative_last_one (L.map IndexDist.dist) hwne htot, hp1⟩
  have hidx : (((cumSum L 0).map
      (fun v => (⟨v.index, v.dist / (L.map IndexDist.dist).sum⟩ : IndexDist))).map
      IndexDist.index) = L.map IndexDist.index := by
    rw [List.map_map]
    have : (IndexDist.index ∘ fun v : IndexDist =>
        (⟨v.index, v.dist / (L.map IndexDist.dist).sum⟩ : IndexDist)) = IndexDist.index := by
      funext v; rfl
    rw [this, cumSum_map_index]
  refine ⟨t, ht, ?_, ?_⟩
  · have hn := normalized_dists L
    have := (selectIndex_spec ((cumSum L 0).map
      (fun v => ⟨v.index, v.dist / (L.map IndexDist.dist).sum⟩)) p ind t (by rw [hn]; exact ht)).1
    rw [List.length_map, cumSum_length] at this
    exact this
  · rw [normalizeIndexDist_eq L hne]
    have hn := normalized_dists L
    obtain ⟨_, hsel⟩ := selectIndex_spec ((cumSum L 0).map
      (fun v => ⟨v.index, v.dist / (L.map IndexDist.dist).sum⟩)) p ind t (by rw [hn]; exact ht)
    dsimp only
    rw [hsel, hidx]

/-! ### The candidate weights -/

theorem foldl_min_step (s : PlsaSample) : ∀ (cs : List Cluster) (d0 : ℝ),
    cs.foldl (fun d c =>
      let dd := DistanceFrom s c.Centroid
      match d with
      | none => some dd
      | some d1 => if dd < d1 then some dd else some d1) (some d0)
    = some ((cs.map (fun c => DistanceFrom s c.Centroid)).foldl min d0) := by
  intro cs
  induction cs with
  | nil => intro d0; rfl
  | cons c rest ih =>
    intro d0
    rw [List.foldl_cons, List.map_cons, List.foldl_cons]
    have hstep : (if DistanceFrom s c.Centroid < d0
        then some (DistanceFrom s c.Centroid) else some d0)
        = some (min d0 (DistanceFrom s c.Centroid)) := by
      by_cases h : DistanceFrom s c.Centroid < d0
      · rw [if_pos h, min_eq_right (le_of_lt h)]
      · rw [if_neg h, min_eq_left (le_of_not_lt h)]
    dsimp only
    rw [hstep]
    exact ih (min d0 (DistanceFrom s c.Centroid))

/-- The `shortestDist` fold computes the minimum `DistanceFrom` over the
chosen clusters. -/
theorem shortestDistTo_eq_listMin (s : PlsaSample) (clusters : List Cluster)
    (h : clusters ≠ []) :
    (shortestDistTo s clusters).getD 0
      = listMin (clusters.map (fun c => DistanceFrom s c.Centroid)) := by
  rcases clusters with _ | ⟨c, cs⟩
  · exact absurd rfl h
  · rw [shortestDistTo, List.foldl_cons]
    have h0 : (match (none : Option ℝ) with
        | none => some (DistanceFrom s c.Centroid)
        | some d1 => if DistanceFrom s c.Centroid < d1
            then some (DistanceFrom s c.Centroid) else some d1)
        = some (DistanceFrom s c.Centroid) := rfl
    dsimp only
    rw [foldl_min_step s cs (DistanceFrom s c.Centroid)]
    rfl

theorem foldl_min_eq_or_mem : ∀ (xs : List ℝ) (x : ℝ),
    xs.foldl min x = x ∨ xs.foldl min x ∈ xs := by
  intro xs
  induction xs with
  | nil => intro x; left; rfl
  | cons y ys ih =>
    intro x
    rw [List.foldl_cons]
    rcases ih (min x y) with h | h
    · rcases min_choice x y with hm | hm
      · left; rw [h, hm]
      · right; rw [h, hm]; simp
    · right; simp [h]

theorem listMin_mem : ∀ (l : List ℝ), l ≠ [] → listMin l ∈ l := by
  intro l h
  rcases l with _ | ⟨x, xs⟩
  · exact absurd rfl h
  · rw [listMin]
    rcases foldl_min_eq_or_mem xs x with h1 | h1
    · rw [h1]; simp
    · simp [h1]

theorem shortestDistTo_attained (s : PlsaSample) (clusters : List Cluster)
    (h : clusters ≠ []) :
    ∃ c ∈ clusters, (shortestDistTo s clusters).getD 0 = DistanceFrom s c.Centroid := by
  rw [shortestDistTo_eq_listMin s clusters h]
  have hmem := listMin_mem (clusters.map (fun c => DistanceFrom s c.Centroid))
    (by simpa using h)
  rcases List.mem_map.mp hmem with ⟨c, hc, heq⟩
  exact ⟨c, hc, heq.symm⟩

theorem mem_unchosenIdx {n : Nat} {indList : List Nat} {j : Nat} :
    j ∈ unchosenIdx n indList ↔ j < n ∧ j ∉ indList := by
  simp [unchosenIdx]

/-- As long as fewer indices are chosen than the corpus holds, some
candidate remains. -/
theorem unchosenIdx_ne_nil (n : Nat) (indList : List Nat) (hnd : indList.Nodup)
    (hlen : indList.length < n) : unchosenIdx n indList ≠ [] := by
  intro hempty
  have hall : ∀ j, j < n → j ∈ indList := by
    intro j hj
    by_contra hnot
    have : j ∈ unchosenIdx n indList := mem_unchosenIdx.mpr ⟨hj, hnot⟩
    rw [hempty] at this
    cases this
  have hsub : Finset.range n ⊆ indList.toFinset := by
    intro j hj
    exact List.mem_toFinset.mpr (hall j (Finset.mem_range.mp hj))
  have := Finset.card_le_card hsub
  rw [Finset.card_range, List.toFinset_card_of_nodup hnd] at this
  omega

/-- The candidate list is exactly the not-yet-chosen indices, each
weighted by the SQUARE of its minimum `DistanceFrom` value. -/
theorem candidates_eq (corpus : List PlsaSample) (indList : List Nat)
    (clusters : List Cluster) (h : clusters ≠ []) :
    candidates corpus indList clusters
      = (unchosenIdx corpus.length indList).map
          (fun j => ⟨j, specNearestDist corpus clusters j * specNearestDist corpus clusters j⟩) := by
  rw [candidates]
  refine List.map_congr_left (fun j _ => ?_)
  dsimp only
  rw [shortestDistTo_eq_listMin (corpus.getD j zeroSample) clusters h]
  rfl

/-- C3 (amended).  In every seeding round with a nonempty chosen set and
a positive total weight, the code weights each not-yet-chosen index by
the SQUARE of the value `DistanceFrom` returns (the fourth power of the
Euclidean distance to the nearest chosen centroid), builds the
cumulative-sum array over these weights in corpus order, normalizes by
the total, and selects the first candidate whose cumulative value
exceeds the draw `p ∈ [0,1)`. -/
theorem C3_round_selects_by_squared_distance (corpus : List PlsaSample)
    (indList : List Nat) (clusters : List Cluster) (ind : Nat) (p : ℝ)
    (hcl : clusters ≠ [])
    (htot : 0 < ((unchosenIdx corpus.length indList).map
        (fun j => specNearestDist corpus clusters j * specNearestDist corpus clusters j)).sum)
    (hp1 : p < 1) :
    ∃ t, specFirstExceed (specCumulative ((unchosenIdx corpus.length indList).map
          (fun j => specNearestDist corpus clusters j * specNearestDist corpus clusters j))) p
        = some t ∧
      kppPick corpus indList clusters ind p
        = some ((unchosenIdx corpus.length indList).getD t 0) ∧
      kppPick corpus indList clusters ind p = squaredRoundPick corpus indList clusters p := by
  set ws := (unchosenIdx corpus.length indList).map
    (fun j => specNearestDist corpus clusters j * specNearestDist corpus clusters j) with hws
  set L := (unchosenIdx corpus.length indList).map
    (fun j => (⟨j, specNearestDist corpus clusters j * specNearestDist corpus clusters j⟩
      : IndexDist)) with hL
  have hLd : L.map IndexDist.dist = ws := by
    rw [hL, hws, List.map_map]
    rfl
  have hLi : L.map IndexDist.index = unchosenIdx corpus.length indList := by
    rw [hL, List.map_map]
    have hf : (IndexDist.index ∘ fun j : Nat =>
        (⟨j, specNearestDist corpus clusters j * specNearestDist corpus clusters j⟩ : IndexDist))
        = id := by funext j; rfl
    rw [hf, List.map_id]
  have htot' : 0 < (L.map IndexDist.dist).sum := by rw [hLd]; exact htot
  obtain ⟨t, ht, hlt, heq⟩ := pick_refines L p ind htot' hp1
  rw [hLd] at ht
  rw [hLi] at heq
  have hkpp : kppPick corpus indList clusters ind p
      = some ((unchosenIdx corpus.length indList).getD t 0) := by
    rw [kppPick, candidates_eq corpus indList clusters hcl, ← hL]
    exact heq
  refine ⟨t, ht, hkpp, ?_⟩
  rw [hkpp, squaredRoundPick]
  rw [← hws, ht]
  rfl

/-- Witness for the amended C3 at a concrete round: corpus
`[{x:1}, {y:1}]`, index 0 already chosen, draw `1/2`. -/
theorem C3_amended_witness :
    ∃ t, specFirstExceed (specCumulative ((unchosenIdx
          ([⟨0, [("x", 1)], 0⟩, ⟨1, [("y", 1)], 0⟩] : List PlsaSample).length [0]).map
          (fun j => specNearestDist [⟨0, [("x", 1)], 0⟩, ⟨1, [("y", 1)], 0⟩]
              [⟨1, ⟨0, [("x", 1)], 0⟩, []⟩] j
            * specNearestDist [⟨0, [("x", 1)], 0⟩, ⟨1, [("y", 1)], 0⟩]
              [⟨1, ⟨0, [("x", 1)], 0⟩, []⟩] j))) (1/2)
        = some t ∧
      kppPick [⟨0, [("x", 1)], 0⟩, ⟨1, [("y", 1)], 0⟩] [0]
          [⟨1, ⟨0, [("x", 1)], 0⟩, []⟩] 0 (1/2)
        = some ((unchosenIdx
            ([⟨0, [("x", 1)], 0⟩, ⟨1, [("y", 1)], 0⟩] : List PlsaSample).length [0]).getD t 0) ∧
      kppPick [⟨0, [("x", 1)], 0⟩, ⟨1, [("y", 1)], 0⟩] [0]
          [⟨1, ⟨0, [("x", 1)], 0⟩, []⟩] 0 (1/2)
        = squaredRoundPick [⟨0, [("x", 1)], 0⟩, ⟨1, [("y", 1)], 0⟩] [0]
          [⟨1, ⟨0, [("x", 1)], 0⟩, []⟩] (1/2) :=
  C3_round_selects_by_squared_distance
    [⟨0, [("x", 1)], 0⟩, ⟨1, [("y", 1)], 0⟩] [0] [⟨1, ⟨0, [("x", 1)], 0⟩, []⟩] 0 (1/2)
    (by simp)
    (by
      have : unchosenIdx ([⟨0, [("x", 1)], 0⟩, ⟨1, [("y", 1)], 0⟩] : List PlsaSample).length [0]
          = [1] := by
        simp [unchosenIdx, List.range_succ]
      rw [this]
      simp only [List.map_cons, List.map_nil, List.sum_cons, List.sum_nil]
      have h2 : specNearestDist [⟨0, [("x", 1)], 0⟩, ⟨1, [("y", 1)], 0⟩]
          [⟨1, ⟨0, [("x", 1)], 0⟩, []⟩] 1 = 2 := by
        simp [specNearestDist, listMin, DistanceFrom, findW]
        norm_num
      rw [h2]
      norm_num)
    (by norm_num)

/-- Counterexample to C3 as stated.  Corpus `[{x:1}, {y:1}, {y:2}]` with
index 0 chosen as first centroid and draw `p = 1/5`: the `DistanceFrom`
values of the two candidates are `2` and `5`, so the claim's cumulative
array is `[2/7, 1]` and the claim selects index 1 (`1/5 < 2/7`); the
code weights by the squares `4` and `25`, its cumulative array is
`[4/29, 1]`, and it selects index 2 (`4/29 < 1/5`). -/
theorem C3_counterexample :
    kppPick [⟨0, [("x", 1)], 0⟩, ⟨1, [("y", 1)], 0⟩, ⟨2, [("y", 2)], 0⟩] [0]
        [⟨1, ⟨0, [("x", 1)], 0⟩, []⟩] 0 (1/5) = some 2 ∧
    claimedRoundPick [⟨0, [("x", 1)], 0⟩, ⟨1, [("y", 1)], 0⟩, ⟨2, [("y", 2)], 0⟩] [0]
        [⟨1, ⟨0, [("x", 1)], 0⟩, []⟩] (1/5) = some 1 ∧
    (2 : Nat) ≠ 1 := by
  have hunch : unchosenIdx
      ([⟨0, [("x", 1)], 0⟩, ⟨1, [("y", 1)], 0⟩, ⟨2, [("y", 2)], 0⟩] : List PlsaSample).length [0]
      = [1, 2] := by
    simp [unchosenIdx, List.range_succ]
  have hd1 : specNearestDist [⟨0, [("x", 1)], 0⟩, ⟨1, [("y", 1)], 0⟩, ⟨2, [("y", 2)], 0⟩]
      [⟨1, ⟨0, [("x", 1)], 0⟩, []⟩] 1 = 2 := by
    simp [specNearestDist, listMin, DistanceFrom, findW]
    norm_num
  have hd2 : specNearestDist [⟨0, [("x", 1)], 0⟩, ⟨1, [("y", 1)], 0⟩, ⟨2, [("y", 2)], 0⟩]
      [⟨1, ⟨0, [("x", 1)], 0⟩, []⟩] 2 = 5 := by
    simp [specNearestDist, listMin, DistanceFrom, findW]
    norm_num
  refine ⟨?_, ?_, by decide⟩
  · have hc : candidates [⟨0, [("x", 1)], 0⟩, ⟨1, [("y", 1)], 0⟩, ⟨2, [("y", 2)], 0⟩] [0]
        [⟨1, ⟨0, [("x", 1)], 0⟩, []⟩] = [⟨1, 4⟩, ⟨2, 25⟩] := by
      rw [candidates_eq _ _ _ (by simp), hunch]
      rw [List.map_cons, List.map_cons, List.map_nil, hd1, hd2]
      norm_num
    have hn : normalizeIndexDist [⟨1, 4⟩, ⟨2, 25⟩] = some [⟨1, 4/29⟩, ⟨2, 1⟩] := by
      rw [normalizeIndexDist]
      simp [cumSum]
      norm_num
    have hs : selectIndex [⟨1, (4:ℝ)/29⟩, ⟨2, 1⟩] (1/5) 0 = 2 := by
      rw [selectIndex, if_neg (by norm_num), selectIndex, if_pos (by norm_num)]
    rw [kppPick, hc, hn]
    dsimp only
    rw [hs]
  · have hcum : specCumulative [(2:ℝ), 5] = [2/7, 1] := by
      simp [specCumulative, List.range_succ]
      norm_num
    have hfe : specFirstExceed [(2:ℝ)/7, 1] (1/5) = some 0 := by
      rw [specFirstExceed, if_pos (by norm_num)]
    simp only [claimedRoundPick, hunch, List.map_cons, List.map_nil, hd1, hd2, hcum, hfe,
      Option.map_some]
    rfl

/-! ### Seeding validity (C4) -/

theorem buildClusters_length (corpus : List PlsaSample) :
    ∀ (l : List Nat) (i : Nat), (buildClusters corpus l i).length = l.length := by
  intro l
  induction l with
  | nil => intro i; rfl
  | cons j rest ih => intro i; simp [buildClusters, ih]

theorem buildClusters_append (corpus : List PlsaSample) :
    ∀ (l : List Nat) (j i : Nat),
      buildClusters corpus (l ++ [j]) i
        = buildClusters corpus l i
            ++ [⟨((i + l.length : Nat) : Int), corpus.getD j zeroSample, []⟩] := by
  intro l
  induction l with
  | nil => intro j i; simp [buildClusters]
  | cons x xs ih =>
    intro j i
    rw [List.cons_append, buildClusters, buildClusters, ih j (i + 1), List.cons_append]
    have : i + 1 + xs.length = i + (x :: xs).length := by simp; omega
    rw [this]

theorem mem_buildClusters (corpus : List PlsaSample) :
    ∀ (l : List Nat) (i : Nat) (c : Cluster), c ∈ buildClusters corpus l i →
      c.Members = [] ∧ ∃ j ∈ l, c.Centroid = corpus.getD j zeroSample := by
  intro l
  induction l with
  | nil => intro i c h; cases h
  | cons x xs ih =>
    intro i c h
    rcases List.mem_cons.mp h with rfl | h
    · exact ⟨rfl, x, by simp, rfl⟩
    · obtain ⟨hm, j, hj, hc⟩ := ih (i + 1) c h
      exact ⟨hm, j, List.mem_cons_of_mem x hj, hc⟩

theorem buildClusters_ne_nil (corpus : List PlsaSample) (l : List Nat) (i : Nat)
    (h : l ≠ []) : buildClusters corpus l i ≠ [] := by
  intro hc
  have := buildClusters_length corpus l i
  rw [hc] at this
  exact h (List.length_eq_zero.mp this.symm)

/-- Distinct selected indices with injective corpus identities yield
pairwise-distinct centroid identities. -/
theorem buildClusters_pairwise (corpus : List PlsaSample) (n : Nat)
    (hid : ∀ a b, a < n → b < n → a ≠ b →
      (corpus.getD a zeroSample).topicId ≠ (corpus.getD b zeroSample).topicId) :
    ∀ (l : List Nat) (i : Nat), l.Nodup → (∀ x ∈ l, x < n) →
      List.Pairwise (fun c d => c.Centroid.topicId ≠ d.Centroid.topicId)
        (buildClusters corpus l i) := by
  intro l
  induction l with
  | nil => intro i _ _; exact List.Pairwise.nil
  | cons x xs ih =>
    intro i hnd hbound
    obtain ⟨hx, hxs⟩ := List.nodup_cons.mp hnd
    rw [buildClusters]
    refine List.Pairwise.cons ?_ (ih (i + 1) hxs (fun y hy => hbound y (List.mem_cons_of_mem x hy)))
    intro d hd
    obtain ⟨_, j, hj, hc⟩ := mem_buildClusters corpus xs (i + 1) d hd
    dsimp only
    rw [hc]
    exact hid x j (hbound x (by simp)) (hbound j (List.mem_cons_of_mem x hj))
      (fun he => hx (he ▸ hj))

/-- The selected candidate of a successful round is a fresh in-range
index.  (`i ≥ 2` rounds; `clusters` is the generation built from the
already-chosen indices.) -/
theorem kppPick_fresh (corpus : List PlsaSample) (indList : List Nat) (ind : Nat)
    (p : ℝ) (hp1 : p < 1)
    (hdist : ∀ a b, a < corpus.length → b < corpus.length → a ≠ b →
      0 < DistanceFrom (corpus.getD a zeroSample) (corpus.getD b zeroSample))
    (hnd : indList.Nodup) (hbound : ∀ x ∈ indList, x < corpus.length)
    (hne : indList ≠ []) (hlt : indList.length < corpus.length) :
    ∃ newInd, kppPick corpus indList (buildClusters corpus indList 1) ind p = some newInd ∧
      newInd < corpus.length ∧ newInd ∉ indList := by
  set clusters := buildClusters corpus indList 1 with hcl
  have hclne : clusters ≠ [] := buildClusters_ne_nil corpus indList 1 hne
  have hunne : unchosenIdx corpus.length indList ≠ [] :=
    unchosenIdx_ne_nil corpus.length indList hnd hlt
  have hwpos : ∀ j ∈ unchosenIdx corpus.length indList,
      0 < specNearestDist corpus clusters j * specNearestDist corpus clusters j := by
    intro j hj
    obtain ⟨hjn, hjni⟩ := mem_unchosenIdx.mp hj
    have hpos : 0 < specNearestDist corpus clusters j := by
      have hmem := listMin_mem
        (clusters.map (fun c => DistanceFrom (corpus.getD j zeroSample) c.Centroid))
        (by simpa using hclne)
      rcases List.mem_map.mp hmem with ⟨c, hc, heq⟩
      obtain ⟨_, j', hj', hcent⟩ := mem_buildClusters corpus indList 1 c hc
      rw [specNearestDist, ← heq, hcent]
      exact hdist j j' hjn (hbound j' hj') (fun he => hjni (he ▸ hj'))
    exact mul_pos hpos hpos
  set L := candidates corpus indList clusters with hLdef
  have hLeq : L = (unchosenIdx corpus.length indList).map
      (fun j => ⟨j, specNearestDist corpus clusters j * specNearestDist corpus clusters j⟩) :=
    candidates_eq corpus indList clusters hclne
  have hLd : L.map IndexDist.dist = (unchosenIdx corpus.length indList).map
      (fun j => specNearestDist corpus clusters j * specNearestDist corpus clusters j) := by
    rw [hLeq, List.map_map]
    rfl
  have hLi : L.map IndexDist.index = unchosenIdx corpus.length indList := by
    rw [hLeq, List.map_map]
    have hf : (IndexDist.index ∘ fun j : Nat =>
        (⟨j, specNearestDist corpus clusters j * specNearestDist corpus clusters j⟩ : IndexDist))
        = id := by funext j; rfl
    rw [hf, List.map_id]
  have htot : 0 < (L.map IndexDist.dist).sum := by
    rw [hLd]
    refine List.sum_pos _ (fun x hx => ?_) (by simpa using hunne)
    rcases List.mem_map.mp hx with ⟨j, hj, rfl⟩
    exact hwpos j hj
  obtain ⟨t, _, htl, heq⟩ := pick_refines L p ind htot hp1
  rw [hLi] at heq
  have htu : t < (unchosenIdx corpus.length indList).length := by
    have := htl
    rw [hLeq, List.length_map] at this
    exact this
  refine ⟨(unchosenIdx corpus.length indList).getD t 0, ?_, ?_⟩
  · rw [kppPick, ← hLdef]
    exact heq
  · have hmem : (unchosenIdx corpus.length indList).getD t 0
        ∈ unchosenIdx corpus.length indList := by
      rw [List.getD_eq_getElem _ _ htu]
      exact List.getElem_mem htu
    exact And.intro (mem_unchosenIdx.mp hmem).1 (mem_unchosenIdx.mp hmem).2

/-- The seeding loop invariant: starting from any valid partial
selection, the loop completes its remaining rounds and returns the
clusters built from a duplicate-free extension of the chosen indices. -/
theorem kppLoop_builds (corpus : List PlsaSample) (probs : Nat → ℝ) (r0 : Nat)
    (hn : 0 < corpus.length)
    (hdist : ∀ a b, a < corpus.length → b < corpus.length → a ≠ b →
      0 < DistanceFrom (corpus.getD a zeroSample) (corpus.getD b zeroSample))
    (hp : ∀ m, probs m < 1) :
    ∀ (rem : Nat) (indList : List Nat) (ind : Nat),
      indList.Nodup → (∀ x ∈ indList, x < corpus.length) →
      rem + indList.length ≤ corpus.length →
      ∃ idxs : List Nat,
        (indList ++ idxs).Nodup ∧ (∀ x ∈ indList ++ idxs, x < corpus.length) ∧
        idxs.length = rem ∧
        kppLoop corpus probs r0 rem (indList.length + 1)
            (buildClusters corpus indList 1) indList ind
          = some (buildClusters corpus (indList ++ idxs) 1) := by
  intro rem
  induction rem with
  | zero =>
    intro indList ind hnd hbound _
    refine ⟨[], by simpa using hnd, ?_, rfl, by rw [kppLoop, List.append_nil]⟩
    intro x hx
    exact hbound x (by simpa using hx)
  | succ rem ih =>
    intro indList ind hnd hbound hlen
    have hstep : ∃ newInd,
        (if indList.length + 1 = 1 then
          (if corpus.length = 0 then none else some (r0 % corpus.length))
         else kppPick corpus indList (buildClusters corpus indList 1) ind
           (probs (indList.length + 1)))
          = some newInd ∧ newInd < corpus.length ∧ newInd ∉ indList := by
      by_cases hnil : indList = []
      · subst hnil
        refine ⟨r0 % corpus.length, ?_, Nat.mod_lt r0 hn, by simp⟩
        rw [if_pos (by simp), if_neg (by omega)]
      · have hne1 : indList.length + 1 ≠ 1 := by
          have := List.length_pos.mpr hnil
          omega
        rw [if_neg hne1]
        exact kppPick_fresh corpus indList ind (probs (indList.length + 1)) (hp _)
          hdist hnd hbound hnil (by omega)
    obtain ⟨newInd, hsome, hlt', hnotin⟩ := hstep
    have hnd' : (indList ++ [newInd]).Nodup := by
      rw [List.nodup_append]
      refine ⟨hnd, List.nodup_singleton _, fun a ha hb => ?_⟩
      rw [List.mem_singleton] at hb
      exact hnotin (hb ▸ ha)
    have hbound' : ∀ x ∈ indList ++ [newInd], x < corpus.length := by
      intro x hx
      rcases List.mem_append.mp hx with h | h
      · exact hbound x h
      · rw [List.mem_singleton] at h
        exact h ▸ hlt'
    have hlen' : rem + (indList ++ [newInd]).length ≤ corpus.length := by
      rw [List.length_append]
      simp only [List.length_singleton]
      omega
    obtain ⟨idxs', hnd'', hbound'', hlen'', heq''⟩ :=
      ih (indList ++ [newInd]) newInd hnd' hbound' hlen'
    have hassoc : (indList ++ [newInd]) ++ idxs' = indList ++ newInd :: idxs' := by
      rw [List.append_assoc, List.singleton_append]
    refine ⟨newInd :: idxs', ?_, ?_, ?_, ?_⟩
    · rw [← hassoc]
      exact hnd''
    · rw [← hassoc]
      exact hbound''
    · simp [hlen'']
    · have harg1 : (indList ++ [newInd]).length + 1 = indList.length + 1 + 1 := by simp
      have harg2 : buildClusters corpus (indList ++ [newInd]) 1
          = buildClusters corpus indList 1
            ++ [⟨((indList.length + 1 : Nat) : Int), corpus.getD newInd zeroSample, []⟩] := by
        rw [buildClusters_append]
        rw [Nat.add_comm 1 indList.length]
      rw [harg1, harg2, hassoc] at heq''
      rw [kppLoop]
      rw [hsome]
      exact heq''

/-- C4 (amended).  For `1 ≤ k ≤ |corpus|`, when all pairs of distinct
corpus samples are at positive `DistanceFrom` from each other (no
duplicated points) and corpus identities are pairwise distinct, the
seeder succeeds and returns exactly `k` clusters, each with empty
membership and a centroid equal to some corpus sample, with
pairwise-distinct centroid identities.  (`probs` are the unit-interval
draws of the explicit random source.) -/
theorem C4_seeding_valid (corpus : List PlsaSample) (k r0 : Nat) (probs : Nat → ℝ)
    (hk1 : 1 ≤ k) (hkn : k ≤ corpus.length)
    (hdist : ∀ a b, a < corpus.length → b < corpus.length → a ≠ b →
      0 < DistanceFrom (corpus.getD a zeroSample) (corpus.getD b zeroSample))
    (hid : ∀ a b, a < corpus.length → b < corpus.length → a ≠ b →
      (corpus.getD a zeroSample).topicId ≠ (corpus.getD b zeroSample).topicId)
    (hp : ∀ m, probs m < 1) :
    ∃ cs, kMeanPlusPlus corpus k r0 probs = some cs ∧
      cs.length = k ∧
      (∀ c ∈ cs, c.Members = []
        ∧ ∃ j, j < corpus.length ∧ c.Centroid = corpus.getD j zeroSample) ∧
      List.Pairwise (fun c d => c.Centroid.topicId ≠ d.Centroid.topicId) cs := by
  have hn : 0 < corpus.length := lt_of_lt_of_le hk1 hkn
  obtain ⟨idxs, hnd, hbound, hlen, heq⟩ := kppLoop_builds corpus probs r0 hn hdist hp
    k [] 0 List.nodup_nil (by simp) (by simpa using hkn)
  rw [List.nil_append] at hnd heq
  have hbound' : ∀ x ∈ idxs, x < corpus.length := fun x hx => hbound x (by simpa using hx)
  refine ⟨buildClusters corpus idxs 1, ?_, ?_, ?_, ?_⟩
  · rw [kMeanPlusPlus]
    exact heq
  · rw [buildClusters_length, hlen]
  · intro c hc
    obtain ⟨hm, j, hj, hcent⟩ := mem_buildClusters corpus idxs 1 c hc
    exact ⟨hm, j, hbound' j hj, hcent⟩
  · exact buildClusters_pairwise corpus corpus.length hid idxs 1 hnd hbound'

/-- Counterexample to C4 as stated.  On the corpus of two coincident
points `{x:1}` with distinct identities 0 and 1 (`k = 2 ≤` corpus size),
the second round's only candidate has weight `0`, the normalization
divides `0/0` (Go: `NaN`), no cumulative value exceeds the draw, and
`ind` silently keeps its previous value: the seeder returns two clusters
BOTH centred on sample 0 — the centroid identities are not pairwise
distinct. -/
theorem C4_counterexample :
    kMeanPlusPlus [⟨0, [("x", 1)], 0⟩, ⟨1, [("x", 1)], 0⟩] 2 0 (fun _ => 1/2)
      = some [⟨1, ⟨0, [("x", 1)], 0⟩, []⟩, ⟨2, ⟨0, [("x", 1)], 0⟩, []⟩] ∧
    ¬ List.Pairwise (fun c d => c.Centroid.topicId ≠ d.Centroid.topicId)
        ([⟨1, ⟨0, [("x", 1)], 0⟩, []⟩, ⟨2, ⟨0, [("x", 1)], 0⟩, []⟩] : List Cluster) := by
  constructor
  · have hD : DistanceFrom ⟨1, [("x", 1)], 0⟩ ⟨0, [("x", 1)], 0⟩ = 0 := by
      simp [DistanceFrom, findW]
    have hc : candidates [⟨0, [("x", 1)], 0⟩, ⟨1, [("x", 1)], 0⟩] [0]
        [⟨1, ⟨0, [("x", 1)], 0⟩, []⟩] = [⟨1, 0⟩] := by
      simp [candidates, List.range_succ, shortestDistTo, hD]
    have hn : normalizeIndexDist [⟨1, (0:ℝ)⟩] = some [⟨1, 0⟩] := by
      rw [normalizeIndexDist]
      simp [cumSum]
    have hs : selectIndex [⟨1, (0:ℝ)⟩] (1/2) 0 = 0 := by
      rw [selectIndex, if_neg (by norm_num), selectIndex]
    rw [kMeanPlusPlus, kppLoop, if_pos rfl, if_neg (by norm_num)]
    simp only [Nat.zero_mod]
    rw [kppLoop, if_neg (by norm_num)]
    have hnil : ([] : List Cluster)
        ++ [⟨((1 : Nat) : Int), ([⟨0, [("x", 1)], 0⟩, ⟨1, [("x", 1)], 0⟩] :
            List PlsaSample).getD 0 zeroSample, []⟩]
        = [⟨1, ⟨0, [("x", 1)], 0⟩, []⟩] := by
      simp [List.getD]
    rw [hnil, kppPick]
    simp only [List.nil_append]
    rw [hc, hn]
    dsimp only
    rw [hs, kppLoop]
    simp [List.getD]
  · simp

/-- Witness for the amended C4: corpus `[{x:1}, {y:1}]` (distinct points,
distinct identities), `k = 2`, first draw index 0, all unit-interval
draws `1/2`. -/
theorem C4_witness :
    ∃ cs, kMeanPlusPlus [⟨0, [("x", 1)], 0⟩, ⟨1, [("y", 1)], 0⟩] 2 0 (fun _ => 1/2)
        = some cs ∧
      cs.length = 2 ∧
      (∀ c ∈ cs, c.Members = []
        ∧ ∃ j, j < ([⟨0, [("x", 1)], 0⟩, ⟨1, [("y", 1)], 0⟩] : List PlsaSample).length
          ∧ c.Centroid = ([⟨0, [("x", 1)], 0⟩, ⟨1, [("y", 1)], 0⟩] :
              List PlsaSample).getD j zeroSample) ∧
      List.Pairwise (fun c d => c.Centroid.topicId ≠ d.Centroid.topicId) cs :=
  C4_seeding_valid [⟨0, [("x", 1)], 0⟩, ⟨1, [("y", 1)], 0⟩] 2 0 (fun _ => 1/2)
    (by norm_num) (by norm_num)
    (by
      intro a b ha hb hab
      have ha' : a < 2 := by simpa using ha
      have hb' : b < 2 := by simpa using hb
      have hD01 : (0:ℝ) < DistanceFrom ⟨0, [("x", 1)], 0⟩ ⟨1, [("y", 1)], 0⟩ := by
        simp [DistanceFrom, findW]
      have hD10 : (0:ℝ) < DistanceFrom ⟨1, [("y", 1)], 0⟩ ⟨0, [("x", 1)], 0⟩ := by
        simp [DistanceFrom, findW]
      interval_cases a <;> interval_cases b <;> simp_all [List.getD])
    (by
      intro a b ha hb hab
      have ha' : a < 2 := by simpa using ha
      have hb' : b < 2 := by simpa using hb
      interval_cases a <;> interval_cases b <;> simp_all [List.getD])
    (fun m => by norm_num)

/-- Witness for C9 on a concrete 2-sample corpus and 1-cluster seed. -/
theorem C9_witness :
    List.Perm
      (membersOf (assignmentPass [⟨0, [("x", 1)], 0⟩, ⟨1, [("y", 1)], 0⟩]
        [⟨1, ⟨0, [("x", 1)], 0⟩, []⟩] false))
      [⟨0, [("x", 1)], 0⟩, ⟨1, [("y", 1)], 0⟩] :=
  (C9_assignment_partitions [⟨0, [("x", 1)], 0⟩, ⟨1, [("y", 1)], 0⟩]
    [⟨1, ⟨0, [("x", 1)], 0⟩, []⟩] false (by simp)).1

/-- C1.  The claim says the cached norm is invalidated by every mutation,
so that `Norm()` always returns the Euclidean norm of the current
weights.  The code never clears the cache: starting from the sample
`{x: 1}` (topic 7), calling `Norm()` caches `1`; after `Add`ing `{x: 1}`
the weights are `{x: 2}` with Euclidean norm `√4 = 2`, yet `Norm()`
still returns the stale cached `1`. -/
theorem C1_norm_cache_stale :
    (Norm (Add (Norm ⟨7, [("x", 1)], 0⟩).1 ⟨8, [("x", 1)], 0⟩)).2 = 1 ∧
    Real.sqrt (sumSq (Add (Norm ⟨7, [("x", 1)], 0⟩).1 ⟨8, [("x", 1)], 0⟩).repTerms) = 2 := by
  have h1 : Norm ⟨7, [("x", 1)], 0⟩ = (⟨7, [("x", 1)], 1⟩, 1) := by
    simp [Norm, sumSq]
  have h2 : Add (⟨7, [("x", 1)], 1⟩ : PlsaSample) ⟨8, [("x", 1)], 0⟩
      = ⟨7, [("x", 2)], 1⟩ := by
    norm_num [Add, insertAdd]
  rw [h1] at *
  rw [h2]
  constructor
  · simp [Norm]
  · rw [show sumSq [("x", (2:ℝ))] = 4 by norm_num [sumSq],
      show (4:ℝ) = 2 ^ 2 by norm_num, Real.sqrt_sq (by norm_num)]

/-- C2.  The claim says `Normalize` leaves a vector of Euclidean norm 1.
The code divides each weight by the SUM of the weights (L1
normalization) and stamps the cache with `1.0`: on `{a: 1, b: 1}` the
result is `{a: 1/2, b: 1/2}`, whose recomputed Euclidean norm is
`√(1/2) ≠ 1`, even though the cached field claims `1`.  (A second
`Normalize` is indeed a no-op here, since the weights now sum to 1.) -/
theorem C2_normalize_is_l1_not_l2 :
    (Normalize ⟨3, [("a", 1), ("b", 1)], 0⟩).norm = 1 ∧
    Real.sqrt (sumSq (Normalize ⟨3, [("a", 1), ("b", 1)], 0⟩).repTerms) ≠ 1 ∧
    Normalize (Normalize ⟨3, [("a", 1), ("b", 1)], 0⟩)
      = Normalize ⟨3, [("a", 1), ("b", 1)], 0⟩ := by
  have h : Normalize ⟨3, [("a", 1), ("b", 1)], 0⟩
      = ⟨3, [("a", 1/2), ("b", 1/2)], 1⟩ := by
    norm_num [Normalize]
  rw [h]
  refine ⟨rfl, ?_, by norm_num [Normalize]⟩
  rw [show sumSq [("a", (1:ℝ)/2), ("b", (1:ℝ)/2)] = 1/2 by norm_num [sumSq],
    Ne, Real.sqrt_eq_one]
  norm_num

/-- C5.  The claim says that for `k` larger than the corpus size the
clustering fails fast with an "invalid parameter" error.  The code has
no parameter check at all: with a 1-sample corpus and `k = 2`, the
second seeding round builds an empty candidate list and
`normalizeIndexDist` dereferences `indexD[len-1]` on it — an
out-of-range panic (modelled as `none`), not an error value. -/
theorem C5_no_param_check_panics :
    kMeanPlusPlus [⟨0, [("x", 1)], 0⟩] 2 0 (fun _ => 1/2) = none := by
  simp [kMeanPlusPlus, kppLoop, kppPick, candidates, normalizeIndexDist, List.range_succ]

/-- C6.  The claim says the pairwise-cohesion average divides the sum of
the `n·(n-1)/2` pair similarities by the number of pairs, and the stdev
is the standard deviation of those similarities.  On a cluster of 4
identical unit vectors all 6 pair similarities are `1`, so the average
must be `1` and the deviation `0`; the code divides the total `6` by
`n = 4` and returns `3/2`, and returns `√(3/2) ≠ 0` as "stdev" (the
unaveraged sum of squared deviations from the wrong mean). -/
theorem C6_pairwise_stats_divide_by_n :
    (PairwiseConsineSimStats ⟨9, zeroSample,
        [⟨1, [("x", 1)], 0⟩, ⟨2, [("x", 1)], 0⟩, ⟨3, [("x", 1)], 0⟩, ⟨4, [("x", 1)], 0⟩]⟩).1 = 3/2 ∧
    ((3:ℝ)/2) ≠ 1 ∧
    (PairwiseConsineSimStats ⟨9, zeroSample,
        [⟨1, [("x", 1)], 0⟩, ⟨2, [("x", 1)], 0⟩, ⟨3, [("x", 1)], 0⟩, ⟨4, [("x", 1)], 0⟩]⟩).2
      = Real.sqrt (3/2) ∧ Real.sqrt (3/2) ≠ 0 := by
  have hsim : ∀ i j : Int, CosineSim ⟨i, [("x", 1)], 0⟩ ⟨j, [("x", 1)], 0⟩ = 1 := by
    intro i j
    simp [CosineSim, Norm, sumSq, findW]
  have hps : pairSims
      [⟨1, [("x", 1)], 0⟩, ⟨2, [("x", 1)], 0⟩, ⟨3, [("x", 1)], 0⟩, ⟨4, [("x", 1)], 0⟩]
      = [1, 1, 1, 1, 1, 1] := by
    simp [pairSims, hsim]
  refine ⟨?_, by norm_num, ?_, ?_⟩
  · simp only [PairwiseConsineSimStats, hps]
    norm_num
  · simp only [PairwiseConsineSimStats, hps]
    norm_num
  · rw [Ne, Real.sqrt_eq_zero']
    norm_num

/-- C7.  The claim says `Normalize` on an all-zero vector fails with an
inspectable error.  The code has no error channel: on the all-zero
sample `{x: 0}` it divides every weight by the zero total (silently
producing `NaN` in Go, `0` in this idealisation) and stamps the cached
norm with `1.0` as if normalization had succeeded. -/
theorem C7_normalize_allzero_silent :
    Normalize ⟨5, [("x", 0)], 0⟩ = ⟨5, [("x", 0)], 1⟩ := by
  norm_num [Normalize]

/-- C10.  `RecalcCentroid` on a memberless cluster (either geometry)
signals nothing and replaces the centroid with a freshly constructed
zero sample — identity 0, empty term map, zero cached norm — leaving the
(empty) member list as is. -/
theorem C10_recalc_empty_members_zero_centroid (c : Cluster) (b : Bool)
    (h : c.Members = []) :
    RecalcCentroid c b = { c with Centroid := ⟨0, [], 0⟩ } := by
  cases b <;>
    simp [RecalcCentroid, h, Zero, Add, ScalarMul, Norm, sumSq]

/-- Witness for C10 at a concrete cluster with a nonzero previous
centroid, in spherical mode. -/
theorem C10_witness :
    RecalcCentroid ⟨5, ⟨9, [("w", 2)], 0⟩, []⟩ true
      = ⟨5, ⟨0, [], 0⟩, []⟩ :=
  C10_recalc_empty_members_zero_centroid ⟨5, ⟨9, [("w", 2)], 0⟩, []⟩ true rfl

end KMean
